/-
Verification of the reqwire requirement-file model and merge engine
against its specification.

The definitions below are a shallow embedding of the Python sources:

* `src/reqwire/helpers/requirements.py` — `HashableInstallRequirement`
  (`__eq__`/`__hash__`), `PyPiHtmlParser` + `get_canonical_name`,
  `RequirementFile.parse`/`parse_nested_files`, `build_ireq_set`,
  `update_ireq_name`, `write_requirements`;
* `src/reqwire/cli.py` — `main_add` (index-URL collection, per-tag loop
  with `NoCandidateFound` abort) and `main_remove`;
* `reqwire/scaffold.py` is not present in the sources; the functions of
  it that the CLI calls (`extend_source_file`, `build_source_header`,
  `build_filename`, `MODELINES_HEADER`) are modelled from the spec and
  are marked as such in their doc comments.

External collaborators (pip's requirement-line parser and renderer,
piptools' `format_requirement`/`name_from_req`, the HTML tokenizer) are
modelled at their interfaces: a requirement's textual rendering is an
executable function of its fields, a requirements file is its list of
text lines, an index page is a list of lines of HTML token events.
Machine-level details (Python's string hash) are modelled by an explicit
executable hash of the rendered string, which is all the code relies on.
-/
import Mathlib

namespace Reqwire

/-! ## Specifiers: `HashableInstallRequirement`

A parsed requirement line, modelling `pip.req.InstallRequirement` at the
level of detail the reqwire code observes: package name, version
constraints, environment marker, editable flag and source link.  Its
canonical textual rendering `render` models `str(ireq)` /
`piptools.utils.format_requirement` (which agree for the requirement
shapes reqwire writes). -/

/-- A version-constraint operator (`==`, `>=`, `<=`, `!=`, `~=`, `>`, `<`). -/
inductive VOp where
  | veq | vge | vle | vne | vcompat | vgt | vlt
  deriving DecidableEq, Repr

/-- The characters of a version operator, as rendered by pip. -/
def VOp.chars : VOp → List Char
  | .veq => ['=', '=']
  | .vge => ['>', '=']
  | .vle => ['<', '=']
  | .vne => ['!', '=']
  | .vcompat => ['~', '=']
  | .vgt => ['>']
  | .vlt => ['<']

/-- Model of `pip.req.InstallRequirement` restricted to the fields that
reqwire reads, writes or mutates (`HashableInstallRequirement` adds only
`__eq__`/`__hash__` on top of these). -/
structure HIR where
  name : String
  specs : List (VOp × String)
  marker : Option String
  editable : Bool
  link : Option String
  deriving DecidableEq, Repr

/-- Characters that begin a version operator in a requirement line. -/
def opChars : List Char := ['<', '>', '=', '!', '~']

/-- Rendering of the version-constraint list: constraints joined by `,`. -/
def renderSpecsL : List (VOp × String) → List Char
  | [] => []
  | (o, v) :: rest =>
      o.chars ++ v.toList ++ (if rest = [] then [] else [',']) ++ renderSpecsL rest

/-- Rendering of the optional environment marker (`"; " ++ marker`). -/
def renderMarkerL : Option String → List Char
  | none => []
  | some m => ';' :: ' ' :: m.toList

/-- The canonical textual rendering of a requirement (model of
`str(InstallRequirement)` / `piptools.utils.format_requirement`):
editable requirements render as `-e <link>`, others as
`name` ++ constraints ++ marker. -/
def renderL (h : HIR) : List Char :=
  if h.editable then '-' :: 'e' :: ' ' :: (h.link.getD "").toList
  else h.name.toList ++ renderSpecsL h.specs ++ renderMarkerL h.marker

/-- String form of `renderL`; the single source of truth for specifier
equality and hashing. -/
def render (h : HIR) : String := String.mk (renderL h)

/-! ## Parsing a requirement line

Model of `pip.req.InstallRequirement.from_line` on the grammar reqwire
exercises: `-e <url>` editable lines, and `name [op version
{, op version}] [; marker]` lines. -/

/-- Splits a comma-separated character list into its pieces. -/
def splitCsv : List Char → List (List Char)
  | [] => [[]]
  | c :: rest =>
      if c = ',' then [] :: splitCsv rest
      else
        match splitCsv rest with
        | [] => [[c]]
        | p :: ps => (c :: p) :: ps

/-- Parses a leading version operator, longest match first. -/
def parseOp : List Char → Option (VOp × List Char)
  | [] => none
  | [c] =>
      if c = '>' then some (.vgt, [])
      else if c = '<' then some (.vlt, []) else none
  | c1 :: c2 :: r =>
      if c1 = '=' ∧ c2 = '=' then some (.veq, r)
      else if c1 = '>' ∧ c2 = '=' then some (.vge, r)
      else if c1 = '<' ∧ c2 = '=' then some (.vle, r)
      else if c1 = '!' ∧ c2 = '=' then some (.vne, r)
      else if c1 = '~' ∧ c2 = '=' then some (.vcompat, r)
      else if c1 = '>' then some (.vgt, c2 :: r)
      else if c1 = '<' then some (.vlt, c2 :: r)
      else none

/-- Parses one `op version` piece of a constraint list. -/
def parsePiece (cs : List Char) : Option (VOp × String) := do
  let (op, rest) ← parseOp cs
  pure (op, String.mk rest)

/-- Parses a comma-separated constraint list. -/
def parseSpecs (cs : List Char) : Option (List (VOp × String)) :=
  if cs = [] then some [] else (splitCsv cs).mapM parsePiece

/-- Drops one leading space, as pip strips the space after a marker `;`. -/
def dropOneSpace : List Char → List Char
  | ' ' :: r => r
  | r => r

/-- Splits a line body from its marker at the first `;`; a single space
after the `;` is consumed. -/
def splitSemi : List Char → List Char × Option (List Char)
  | [] => ([], none)
  | c :: rest =>
      if c = ';' then ([], some (dropOneSpace rest))
      else
        let (b, m) := splitSemi rest
        (c :: b, m)

/-- Recognizes an editable requirement line `-e ...`. -/
def isEditableLine : List Char → Bool
  | c1 :: c2 :: c3 :: _ => c1 = '-' && c2 = 'e' && c3 = ' '
  | _ => false

/-- Model of `InstallRequirement.from_line` on a character list. -/
def parseLineL (cs : List Char) : Option HIR :=
  if isEditableLine cs then some ⟨"", [], none, true, some (String.mk (cs.drop 3))⟩
  else
    let (body, mk) := splitSemi cs
    let nameCs := body.takeWhile (fun c => ¬ c ∈ opChars)
    let specCs := body.dropWhile (fun c => ¬ c ∈ opChars)
    match parseSpecs specCs with
    | none => none
    | some specs =>
        some ⟨String.mk nameCs, specs, mk.map String.mk, false, none⟩

/-- Model of `InstallRequirement.from_line`. -/
def parseLine (s : String) : Option HIR := parseLineL s.toList

/-! ## Ordered-set helpers

`RequirementFile.parse` builds `OrderedSet(sorted(..., key=str))`: a
stable sort by the rendered string followed by first-occurrence
deduplication by the `HashableInstallRequirement` equality (which
compares rendered strings).  Python's `sorted` is a stable sort; it is
modelled by `List.insertionSort`, which is stable. -/

/-- Lexicographic (code-point) comparison of character lists, modelling
Python's string ordering (non-strict). -/
def charsLe : List Char → List Char → Bool
  | [], _ => true
  | _ :: _, [] => false
  | a :: as, b :: bs => if a = b then charsLe as bs else decide (a < b)

/-- Lexicographic (code-point) comparison of character lists (strict). -/
def charsLt : List Char → List Char → Bool
  | [], [] => false
  | [], _ :: _ => true
  | _ :: _, [] => false
  | a :: as, b :: bs => if a = b then charsLt as bs else decide (a < b)

/-- `a <= b` on strings as Python compares them. -/
def strLe (a b : String) : Bool := charsLe a.toList b.toList

/-- `a < b` on strings as Python compares them. -/
def strLt (a b : String) : Bool := charsLt a.toList b.toList

theorem charsLe_total (as bs : List Char) :
    charsLe as bs = true ∨ charsLe bs as = true := by
  induction as generalizing bs with
  | nil => left; rfl
  | cons a as ih =>
      cases bs with
      | nil => right; rfl
      | cons b bs =>
          by_cases hab : a = b
          · subst hab
            simpa [charsLe] using ih bs
          · rcases lt_or_gt_of_ne hab with hlt | hgt
            · left; simp [charsLe, hab, hlt]
            · right; simp [charsLe, Ne.symm hab, hgt]

theorem charsLe_trans {as bs cs : List Char} (h1 : charsLe as bs = true)
    (h2 : charsLe bs cs = true) : charsLe as cs = true := by
  induction as generalizing bs cs with
  | nil => rfl
  | cons a as ih =>
      cases bs with
      | nil => simp [charsLe] at h1
      | cons b bs =>
          cases cs with
          | nil => simp [charsLe] at h2
          | cons c cs =>
              by_cases hab : a = b <;> by_cases hbc : b = c
              · subst hab; subst hbc
                simp only [charsLe, if_pos rfl] at h1 h2 ⊢
                exact ih h1 h2
              · subst hab
                simp only [charsLe, if_pos rfl] at h1
                simpa [charsLe, hbc] using h2
              · subst hbc
                simp only [charsLe, if_pos rfl] at h2
                simpa [charsLe, hab] using h1
              · simp only [charsLe, if_neg hab, decide_eq_true_iff] at h1
                simp only [charsLe, if_neg hbc, decide_eq_true_iff] at h2
                have hac : a < c := lt_trans h1 h2
                simp [charsLe, ne_of_lt hac, hac]

/-- Comparison key used throughout reqwire: the rendered string. -/
def renderLe (a b : HIR) : Prop := strLe (render a) (render b) = true

instance : DecidableRel renderLe := fun a b => by
  unfold renderLe; infer_instance

instance : IsTotal HIR renderLe :=
  ⟨fun a b => charsLe_total (render a).toList (render b).toList⟩

instance : IsTrans HIR renderLe := ⟨fun _ _ _ h h' => charsLe_trans h h'⟩

/-- Model of Python's stable `sorted(reqs, key=str)`. -/
def sortByRender (l : List HIR) : List HIR := l.insertionSort renderLe

/-- First-occurrence deduplication by rendered string, as `OrderedSet`
insertion performs (an element already present fails to be added). -/
def dedupByRender : List HIR → List HIR := go []
where
  /-- Keeps elements whose render has not been seen yet. -/
  go (seen : List String) : List HIR → List HIR
    | [] => []
    | x :: xs =>
        if render x ∈ seen then go seen xs
        else x :: go (render x :: seen) xs

/-- Ordered union of URL lists, keeping first occurrences (`OrderedSet |=`). -/
def listUnion (a b : List String) : List String :=
  a ++ b.filter (fun u => ¬ u ∈ a)

/-! ## Specifier identity: `__eq__`, `__hash__` (C1, C10)

`HashableInstallRequirement.__eq__` is `str(self) == str(other)` for an
arbitrary `other`, and `__hash__` is `hash(str(self))`. -/

/-- An executable model of Python's string hash: a deterministic function
of the characters alone (the code relies on no other property). -/
def strHash (s : String) : Nat :=
  s.toList.foldl (fun acc c => (acc * 31 + c.toNat) % 1000000007) 7

/-- `HashableInstallRequirement.__eq__` restricted to two requirement
operands: `str(self) == str(other)`. -/
def hirEq (a b : HIR) : Bool := render a == render b

/-- `HashableInstallRequirement.__hash__`: `hash(str(self))`. -/
def hirHash (a : HIR) : Nat := strHash (render a)

/-- A Python value as far as `__eq__`'s untyped `other` operand is
concerned: what matters is its `str()`. -/
inductive PyVal where
  | hir (h : HIR)
  | pystr (s : String)
  | pyint (n : Int)
  deriving DecidableEq, Repr

/-- Python's `str()` on the modelled values. -/
def PyVal.pyStr : PyVal → String
  | .hir h => render h
  | .pystr s => s
  | .pyint n => toString n

/-- `HashableInstallRequirement.__eq__` with an arbitrary operand:
`str(self) == str(other)`. -/
def hirEqAny (h : HIR) (o : PyVal) : Bool := render h == o.pyStr

/-- The requirement obtained by parsing the line `flask`. -/
def flaskHIR : HIR := (parseLine "flask").getD ⟨"", [], none, false, none⟩

/-- C1: two `HashableInstallRequirement` values with equal canonical
renderings compare equal, hash equally, and collapse to one member when
inserted into a set — equality and hash are functions of the rendering
alone, not of object identity. -/
theorem hir_eq_hash_of_render_eq (a b : HIR) (h : render a = render b) :
    hirEq a b = true ∧ hirHash a = hirHash b ∧ dedupByRender [a, b] = [a] := by
  refine ⟨?_, ?_, ?_⟩
  · simp [hirEq, h]
  · simp [hirHash, h]
  · simp [dedupByRender, dedupByRender.go, h]

/-- C1 witness: `a>=1` built as operator `>` with version `=1` and as
operator `>=` with version `1` — distinct field values, identical
rendering — compare equal, hash equally and collapse in a set. -/
theorem hir_eq_hash_of_render_eq_witness :
    hirEq ⟨"a", [(.vgt, "=1")], none, false, none⟩
        ⟨"a", [(.vge, "1")], none, false, none⟩ = true ∧
      hirHash (⟨"a", [(.vgt, "=1")], none, false, none⟩ : HIR) =
        hirHash ⟨"a", [(.vge, "1")], none, false, none⟩ ∧
      dedupByRender [⟨"a", [(.vgt, "=1")], none, false, none⟩,
        ⟨"a", [(.vge, "1")], none, false, none⟩] =
        [⟨"a", [(.vgt, "=1")], none, false, none⟩] :=
  hir_eq_hash_of_render_eq _ _ rfl

/-- C10: `HashableInstallRequirement.__eq__` is untyped string
comparison: `h == o` holds for an operand of any type exactly when
`str(h)` equals `str(o)`; in particular the requirement parsed from
`flask` compares equal to the plain string `flask`. -/
theorem hir_eq_untyped (h : HIR) (o : PyVal) :
    (hirEqAny h o = true ↔ render h = o.pyStr) ∧
      hirEqAny flaskHIR (.pystr "flask") = true := by
  constructor
  · simp [hirEqAny]
  · rfl

/-! ## Canonical-name resolution: `PyPiHtmlParser`, `get_canonical_name` (C3)

The HTML tokenizer is external (`six.moves.html_parser`); an index page
is modelled as the stream it hands to the parser's callbacks: a list of
response lines (`response.iter_lines()`), each line a list of tag/text
events.  The handlers below follow `PyPiHtmlParser` verbatim;
`get_canonical_name` feeds a page line by line and inspects the parser
state after each line. -/

/-- An executable model of Python's `str.lower()` (ASCII case fold; the
package names involved are ASCII). -/
def charLower (c : Char) : Char :=
  if 'A' ≤ c ∧ c ≤ 'Z' then Char.ofNat (c.toNat + 32) else c

/-- Lowercasing of a string, character by character. -/
def strLower (s : String) : String := String.mk (s.toList.map charLower)

/-- `PyPiHtmlParserState`. -/
inductive PState where
  | waiting | collecting | found
  deriving DecidableEq, Repr

/-- One HTML event delivered by the tokenizer. -/
inductive HtmlEvent where
  | startTag (tag : String)
  | endTag (tag : String)
  | text (s : String)
  deriving DecidableEq, Repr

/-- The mutable state of a `PyPiHtmlParser`. -/
structure PyPiParser where
  search : Option String
  state : PState
  collected : List String
  deriving DecidableEq, Repr

/-- `PyPiHtmlParser.__init__`: the search term is lowercased up front. -/
def PyPiParser.init (search : Option String) : PyPiParser :=
  ⟨search.map (fun s => strLower s), .waiting, []⟩

/-- `PyPiHtmlParser.handle_starttag`. -/
def handleStarttag (p : PyPiParser) (tag : String) : PyPiParser :=
  if tag = "a" then { p with state := .collecting } else p

/-- `PyPiHtmlParser.handle_endtag`. -/
def handleEndtag (p : PyPiParser) (tag : String) : PyPiParser :=
  if tag = "a" ∧ p.state = .collecting then { p with state := .waiting } else p

/-- `PyPiHtmlParser.handle_data`: collects anchor text, and flags a match
when its lowercase form equals the lowercased search term. -/
def handleData (p : PyPiParser) (data : String) : PyPiParser :=
  if p.state = .collecting then
    let p' := { p with collected := p.collected ++ [data] }
    if p.search = some (strLower data) then { p' with state := .found } else p'
  else p

/-- Dispatches one event to the matching handler. -/
def feedEvent (p : PyPiParser) : HtmlEvent → PyPiParser
  | .startTag t => handleStarttag p t
  | .endTag t => handleEndtag p t
  | .text s => handleData p s

/-- `parser.feed(line)`: all events of one response line. -/
def feedLine (p : PyPiParser) (line : List HtmlEvent) : PyPiParser :=
  line.foldl feedEvent p

/-- The per-index loop of `get_canonical_name`: feed each response line,
and after each line return `collected_packages[-1]` if the state reached
`found_package_name`. -/
def scanPage (p : PyPiParser) : List (List HtmlEvent) → Option String
  | [] => none
  | line :: rest =>
      let p' := feedLine p line
      if p'.state = .found then p'.collected.getLast? else scanPage p' rest

/-- `get_canonical_name`: tries each index page in turn; `none` models the
`DistributionNotFound` raise when no page yields a match. -/
def getCanonicalName (packageName : String)
    (pages : List (List (List HtmlEvent))) : Option String :=
  match pages with
  | [] => none
  | page :: rest =>
      match scanPage (PyPiParser.init (some packageName)) page with
      | some s => some s
      | none => getCanonicalName packageName rest


/-- Parser invariant: the lowered search term is stable, and in the
`found` state the last collected anchor text lowercases to it. -/
def ParserInv (t : String) (p : PyPiParser) : Prop :=
  p.search = some t ∧
    (p.state = .found → ∃ s, p.collected.getLast? = some s ∧ strLower s = t)

theorem parserInv_feedEvent {t : String} {p : PyPiParser} (e : HtmlEvent)
    (h : ParserInv t p) : ParserInv t (feedEvent p e) := by
  obtain ⟨hs, hf⟩ := h
  cases e with
  | startTag tag =>
      simp only [feedEvent, handleStarttag]
      split
      · exact ⟨hs, by intro hc; cases hc⟩
      · exact ⟨hs, hf⟩
  | endTag tag =>
      simp only [feedEvent, handleEndtag]
      split
      · exact ⟨hs, by intro hc; cases hc⟩
      · exact ⟨hs, hf⟩
  | text s =>
      simp only [feedEvent, handleData]
      split
      · split
        · rename_i hmatch
          refine ⟨hs, fun _ => ⟨s, ?_, ?_⟩⟩
          · simp
          · rw [hs] at hmatch
            exact (Option.some.inj hmatch).symm
        · rename_i hstate _
          refine ⟨hs, fun hc => ?_⟩
          exact absurd hc (by simp [hstate])
      · exact ⟨hs, hf⟩

theorem parserInv_feedLine {t : String} {p : PyPiParser}
    (line : List HtmlEvent) (h : ParserInv t p) :
    ParserInv t (feedLine p line) := by
  induction line generalizing p with
  | nil => exact h
  | cons e rest ih => exact ih (parserInv_feedEvent e h)

theorem scanPage_sound {t : String} {p : PyPiParser}
    (lines : List (List HtmlEvent)) (h : ParserInv t p) {res : String}
    (hres : scanPage p lines = some res) : strLower res = t := by
  induction lines generalizing p with
  | nil => cases hres
  | cons line rest ih =>
      rw [scanPage] at hres
      by_cases hfound : (feedLine p line).state = .found
      · rw [if_pos hfound] at hres
        obtain ⟨s, hlast, hlow⟩ := (parserInv_feedLine line h).2 hfound
        rw [hlast] at hres
        rw [← Option.some.inj hres]
        exact hlow
      · rw [if_neg hfound] at hres
        exact ih (parserInv_feedLine line h) hres

/-- C3 counterexample: the index page `<a>flask</a><a>zzz</a>`, delivered
as one response line, contains an anchor text `flask` whose lowercase
form equals the search name `flask`; the claim says the last such anchor
text is returned, but the trailing non-matching anchor re-enters the
collecting state before the per-line state check runs, so the lookup
finds nothing (`DistributionNotFound`) instead of returning `flask`. -/
theorem get_canonical_name_counterexample :
    getCanonicalName "flask"
        [[[.startTag "a", .text "flask", .endTag "a",
           .startTag "a", .text "zzz", .endTag "a"]]] = none ∧
      strLower "flask" = strLower "flask" := by
  exact ⟨by decide, rfl⟩

/-- C3 amended: `get_canonical_name` checks the parser state only after
feeding each whole response line; whenever it returns a name, that name
is the last collected anchor text and its lowercase form equals the
lowercased search name; for a page presenting `<a>Flask</a><a>flask</a>`
within one line, a search for `flask` returns `flask`, the last match,
not `Flask`.  It is not guaranteed to return whenever some anchor
matches: anchor tags that follow the match in the same line reset the
match state (see the counterexample). -/
theorem get_canonical_name_amended (packageName : String)
    (pages : List (List (List HtmlEvent))) (res : String)
    (hres : getCanonicalName packageName pages = some res) :
    strLower res = strLower packageName ∧
      getCanonicalName "flask"
          [[[.startTag "a", .text "Flask", .endTag "a",
             .startTag "a", .text "flask", .endTag "a"]]] = some "flask" := by
  refine ⟨?_, by decide⟩
  induction pages with
  | nil => cases hres
  | cons page rest ih =>
      rw [getCanonicalName] at hres
      cases hscan : scanPage (PyPiParser.init (some packageName)) page with
      | some s =>
          rw [hscan] at hres
          rw [← Option.some.inj hres]
          exact scanPage_sound page ⟨rfl, by intro hc; cases hc⟩ hscan
      | none =>
          rw [hscan] at hres
          exact ih hres

/-- C3 amended witness: a concrete successful lookup — search `jinja2`
against the page `<a>Flask</a>\n<a>Jinja2</a>` (the page used by the
repository's own test) returns `Jinja2`, which lowercases to the search
name. -/
theorem get_canonical_name_amended_witness :
    strLower "Jinja2" = strLower "jinja2" ∧
      getCanonicalName "flask"
          [[[.startTag "a", .text "Flask", .endTag "a",
             .startTag "a", .text "flask", .endTag "a"]]] = some "flask" :=
  get_canonical_name_amended "jinja2"
    [[[.startTag "a", .text "Flask", .endTag "a"],
      [.startTag "a", .text "Jinja2", .endTag "a"]]] "Jinja2" (by decide)

/-! ## Requirement files on disk: `RequirementFile` (C2, C4)

A file system maps a path (list of components) to the file's text lines.
`parse_nested_files` scans lines for `-r`/`-c` references;
`pip.req.parse_requirements` (external) is modelled as yielding, in line
order, the file's own specifier lines plus — recursively, inline — those
of `-r`/`-c` includes, while threading the finder's index-URL list
(`--index-url` replaces the list, `--extra-index-url` appends). -/

/-- A file path as its list of components. -/
abbrev FsPath := List String

/-- A file system: path to text lines, `none` when the file is absent. -/
abbrev FS := FsPath → Option (List String)

/-- `filename.parent`. -/
def dirOf (p : FsPath) : FsPath := p.dropLast

/-- `parent / name`. -/
def joinPath (d : FsPath) (f : String) : FsPath := d ++ [f]

/-- Prefix test on strings by character lists (kernel-reducible). -/
def strStarts (s pre : String) : Bool := pre.toList.isPrefixOf s.toList

/-- Drops the first `n` characters of a string (kernel-reducible). -/
def strDropN (s : String) (n : Nat) : String := String.mk (s.toList.drop n)

/-- The role a requirements-file line plays for pip's line parser. -/
inductive LineKind where
  | comment | blank
  | nestedReq (f : String)
  | nestedCon (f : String)
  | indexUrl (u : String)
  | extraIndexUrl (u : String)
  | spec (s : String)
  | badOption
  deriving DecidableEq, Repr

/-- Classifies one line the way `pip.req.req_file` does: comments,
`-r`/`-c` includes, index-URL options, and requirement lines. -/
def classifyLine (l : String) : LineKind :=
  if l = "" then .blank
  else if strStarts l "#" then .comment
  else if strStarts l "-r " then .nestedReq (strDropN l 3)
  else if strStarts l "-c " then .nestedCon (strDropN l 3)
  else if strStarts l "--index-url " then .indexUrl (strDropN l 12)
  else if strStarts l "--extra-index-url " then .extraIndexUrl (strDropN l 18)
  else if strStarts l "-e " then .spec l
  else if strStarts l "-" then .badOption
  else .spec l

/-- Model of pip's `parse_requirements` line loop: accumulates parsed
requirements in document order (recursing inline into `-r`/`-c`
includes) and threads the finder's index-URL list. `fuel` is a step
budget; `none` models a pip parse error (malformed line, unknown option,
missing include) or an exhausted budget. -/
def pipParseGo (fs : FS) : Nat → FsPath → List String → List HIR →
    List String → Option (List HIR × List String)
  | 0, _, _, _, _ => none
  | _ + 1, _, [], reqs, urls => some (reqs, urls)
  | fuel + 1, dir, l :: rest, reqs, urls =>
      match classifyLine l with
      | .blank => pipParseGo fs fuel dir rest reqs urls
      | .comment => pipParseGo fs fuel dir rest reqs urls
      | .indexUrl u => pipParseGo fs fuel dir rest reqs [u]
      | .extraIndexUrl u => pipParseGo fs fuel dir rest reqs (urls ++ [u])
      | .nestedReq f =>
          match fs (joinPath dir f) with
          | none => none
          | some nlines =>
              match pipParseGo fs fuel dir nlines reqs urls with
              | none => none
              | some (reqs', urls') => pipParseGo fs fuel dir rest reqs' urls'
      | .nestedCon f =>
          match fs (joinPath dir f) with
          | none => none
          | some nlines =>
              match pipParseGo fs fuel dir nlines reqs urls with
              | none => none
              | some (reqs', urls') => pipParseGo fs fuel dir rest reqs' urls'
      | .badOption => none
      | .spec s =>
          match parseLine s with
          | none => none
          | some h => pipParseGo fs fuel dir rest (reqs ++ [h]) urls

/-- `pip.req.parse_requirements` over a whole file. -/
def pipParse (fs : FS) (fuel : Nat) (path : FsPath) :
    Option (List HIR × List String) :=
  match fs path with
  | none => none
  | some lines => pipParseGo fs fuel (dirOf path) lines [] []

/-- The `-c` / `-r` reference names found by `parse_nested_files`, in
line order. -/
def parseNestedPaths : List String → List String × List String
  | [] => ([], [])
  | l :: rest =>
      let (cs, rs) := parseNestedPaths rest
      match classifyLine l with
      | .nestedReq f => (cs, f :: rs)
      | .nestedCon f => (f :: cs, rs)
      | _ => (cs, rs)

/-- The in-memory `RequirementFile` model: path, parsed specifier set,
index URLs, and recursively parsed nested constraint/requirements
files. -/
inductive RFile where
  | mk (filename : FsPath) (requirements : List HIR) (indexUrls : List String)
      (nestedCfiles : List RFile) (nestedRfiles : List RFile)

/-- The file's path. -/
def RFile.filename : RFile → FsPath
  | .mk f _ _ _ _ => f

/-- The file's own specifier set (insertion order = sorted by render). -/
def RFile.requirements : RFile → List HIR
  | .mk _ r _ _ _ => r

/-- The declared index URLs, primary first. -/
def RFile.indexUrls : RFile → List String
  | .mk _ _ u _ _ => u

/-- Nested constraint files. -/
def RFile.nestedCfiles : RFile → List RFile
  | .mk _ _ _ c _ => c

/-- Nested requirements files. -/
def RFile.nestedRfiles : RFile → List RFile
  | .mk _ _ _ _ r => r

/-- A `RequirementFile` for a path that does not exist: all fields empty. -/
def emptyRFile (path : FsPath) : RFile := .mk path [] [] [] []

/-- Builds the nested `RequirementFile` instances for a list of reference
names: an existing file is parsed with the supplied parser, a missing one
becomes an empty model (the constructor only parses existing files). -/
def buildNested (fs : FS) (pf : FsPath → Option RFile) (dir : FsPath) :
    List String → Option (List RFile)
  | [] => some []
  | f :: rest =>
      let np := joinPath dir f
      match (if (fs np).isSome then pf np else some (emptyRFile np)) with
      | none => none
      | some rf =>
          match buildNested fs pf dir rest with
          | none => none
          | some rfs => some (rf :: rfs)

/-- `RequirementFile.parse`: nested files are parsed recursively, pip's
parse yields the requirement set and index URLs, the requirements are
sorted by rendered string and deduplicated into an ordered set, and every
requirement belonging to a nested requirements file's own set is
subtracted out. `fuel` bounds the recursion (the code has no cycle
guard); `none` models nontermination or a pip parse error. -/
def parseFile (fs : FS) : Nat → FsPath → Option RFile
  | 0, _ => none
  | fuel + 1, path => do
      let lines ← fs path
      let nested := parseNestedPaths lines
      let nestedC ← buildNested fs (parseFile fs fuel) (dirOf path) nested.1
      let nestedR ← buildNested fs (parseFile fs fuel) (dirOf path) nested.2
      let pr ← pipParse fs (fuel + 1) path
      let reqs := dedupByRender (sortByRender pr.1)
      let nestedRenders := (nestedR.map fun rf => rf.requirements.map render).flatten
      pure (.mk path (reqs.filter fun r => ¬ render r ∈ nestedRenders) pr.2
        nestedC nestedR)

/-- The `RequirementFile` constructor: parses the file when it exists,
otherwise yields the empty model. -/
def constructRFile (fs : FS) (fuel : Nat) (path : FsPath) : Option RFile :=
  if (fs path).isSome then parseFile fs fuel path else some (emptyRFile path)


/-- C2: after `RequirementFile.parse`, no specifier belonging to a nested
requirements file's own specifier set remains in the parent's specifier
set (membership taken under the rendering-based specifier equality),
even when the parent textually contains the same line. -/
theorem requirement_file_parse_subtracts_nested (fs : FS) (fuel : Nat)
    (path : FsPath) (rf : RFile) (h : parseFile fs fuel path = some rf) :
    ∀ r ∈ rf.requirements, ∀ nf ∈ rf.nestedRfiles,
      ¬ render r ∈ nf.requirements.map render := by
  cases fuel with
  | zero => cases h
  | succ fuel =>
      rw [parseFile] at h
      simp only [bind, Option.bind_eq_some, Option.pure_def,
        Option.some.injEq] at h
      obtain ⟨lines, hlines, nestedC, hC, nestedR, hR, pr, hpr, hrf⟩ := h
      rw [← hrf]
      intro r hr nf hnf hmem
      simp only [RFile.requirements, RFile.nestedRfiles] at hr hnf
      have hfilter := (List.mem_filter.mp hr).2
      rw [decide_eq_true_iff] at hfilter
      exact hfilter (List.mem_flatten.mpr
        ⟨nf.requirements.map render, List.mem_map_of_mem _ hnf, hmem⟩)

/-- File system for the C2 witness: `parent.in` textually contains
`flask` and `mock` and includes `base.in`, which also declares `flask`. -/
def fsC2 : FS := fun p =>
  if p = ["parent.in"] then some ["flask", "mock", "-r base.in"]
  else if p = ["base.in"] then some ["flask"] else none

/-- C2 witness: after parsing `parent.in` (own set `[mock]`, since
`flask` is attributed solely to the nested `base.in`), the surviving
member `mock` is indeed not a member of the nested file's set. -/
theorem requirement_file_parse_subtracts_nested_witness :
    ¬ render ⟨"mock", [], none, false, none⟩ ∈
      (RFile.mk ["base.in"] [⟨"flask", [], none, false, none⟩]
        [] [] [] : RFile).requirements.map render :=
  requirement_file_parse_subtracts_nested fsC2 5 ["parent.in"]
    (RFile.mk ["parent.in"] [⟨"mock", [], none, false, none⟩] []
      [] [.mk ["base.in"] [⟨"flask", [], none, false, none⟩] [] [] []]) rfl
    ⟨"mock", [], none, false, none⟩ (List.mem_singleton.mpr rfl)
    (.mk ["base.in"] [⟨"flask", [], none, false, none⟩] [] [] [])
    (List.mem_singleton.mpr rfl)

/-! ## File Writer: `write_requirements` (C5)

`write_requirements` writes the header (if any) and then, for every
requirement in sorted rendered order, its rendering followed by a
newline, into an atomically replaced file.  The produced byte string is
modelled by the fold over the writes; the same content viewed as a list
of text lines feeds the parser model. -/

/-- Concatenation of a list of strings. -/
def concatAll : List String → String
  | [] => ""
  | s :: rest => s ++ concatAll rest

/-- The byte content of a file given as its text lines: each line is
terminated by a newline. -/
def fileBytes (lines : List String) : String :=
  concatAll (lines.map fun l => l ++ "\n")

/-- `write_requirements`: the byte string written to the target file —
the header (verbatim, if supplied), then one line per requirement in
sorted rendered order, each written as its rendering plus `\n`. -/
def writeRequirementsBytes (header : Option String) (reqs : List HIR) : String :=
  (sortByRender reqs).foldl (fun acc r => acc ++ render r ++ "\n")
    (match header with | none => "" | some h => h)

/-- The same written file, viewed as its list of text lines (the header
given as lines); this is the form the parser model consumes. -/
def writeRequirementsLines (header : List String) (reqs : List HIR) : List String :=
  header ++ (sortByRender reqs).map render

theorem concatAll_append (a b : List String) :
    concatAll (a ++ b) = concatAll a ++ concatAll b := by
  induction a with
  | nil => simp [concatAll]
  | cons s rest ih => simp [concatAll, ih, String.append_assoc]

theorem foldl_write_eq_concat (l : List HIR) (acc : String) :
    l.foldl (fun acc r => acc ++ render r ++ "\n") acc =
      acc ++ concatAll (l.map fun r => render r ++ "\n") := by
  induction l generalizing acc with
  | nil => simp [concatAll]
  | cons r rest ih =>
      rw [List.foldl_cons, ih]
      simp [concatAll, String.append_assoc]

/-- The lines view and the bytes view of a written file agree. -/
theorem writeRequirements_bytes_eq_lines (header : List String)
    (reqs : List HIR) :
    writeRequirementsBytes (some (fileBytes header)) reqs =
      fileBytes (writeRequirementsLines header reqs) := by
  unfold writeRequirementsBytes writeRequirementsLines fileBytes
  rw [foldl_write_eq_concat, List.map_append, concatAll_append, List.map_map]
  rfl

/-- C5: `write_requirements` writes the header verbatim first, then the
specifiers sorted by rendered string, one per line, each followed by a
newline; the emitted rendered strings are in sorted order; and for an
already-canonical (sorted by rendering) specifier list the emitted lines
are exactly the given list in its given order, so repeated writes of the
same canonical set with the same header produce byte-identical content. -/
theorem write_requirements_canonical (header : String) (reqs S : List HIR)
    (hS : List.Sorted renderLe S) :
    writeRequirementsBytes (some header) reqs =
        header ++ concatAll ((sortByRender reqs).map (fun r => render r ++ "\n")) ∧
      List.Sorted (fun a b : String => strLe a b = true)
        ((sortByRender reqs).map render) ∧
      writeRequirementsBytes (some header) S =
        header ++ concatAll (S.map (fun r => render r ++ "\n")) := by
  refine ⟨?_, ?_, ?_⟩
  · unfold writeRequirementsBytes
    rw [foldl_write_eq_concat]
  · exact List.pairwise_map.mpr (List.sorted_insertionSort renderLe reqs)
  · unfold writeRequirementsBytes
    rw [foldl_write_eq_concat, sortByRender, hS.insertionSort_eq]

/-- C5 witness: writing the canonical list `[flask==1.0, mock]` with a
header emits the header, then exactly those two rendered lines in the
given order. -/
theorem write_requirements_canonical_witness :
    writeRequirementsBytes (some "# header\n")
        [⟨"flask", [(.veq, "1.0")], none, false, none⟩,
         ⟨"mock", [], none, false, none⟩] =
      "# header\n" ++ concatAll (([⟨"flask", [(.veq, "1.0")], none, false, none⟩,
         ⟨"mock", [], none, false, none⟩] : List HIR).map (fun r => render r ++ "\n")) :=
  (write_requirements_canonical "# header\n" []
    [⟨"flask", [(.veq, "1.0")], none, false, none⟩,
     ⟨"mock", [], none, false, none⟩] (by decide)).2.2

/-! ## Round trip: write then parse (C4)

The Lean `HIR` type is wider than the set of values pip can actually
construct: pip validates package names and versions when parsing.
`WellFormed` captures that realistic shape (PEP-508-style name and
version character sets); on it, parsing a rendered requirement recovers
the requirement exactly. -/

/-- Characters pip accepts in a package name (`[A-Za-z0-9._-]`). -/
def goodNameChar (c : Char) : Bool :=
  c.isAlphanum || c = '.' || c = '-' || c = '_'

/-- Characters occurring in version strings (`1.0`, `2.0.*`, `1!2+local`). -/
def goodVersionChar (c : Char) : Bool :=
  c.isAlphanum || c = '.' || c = '*' || c = '+' || c = '_' || c = '-' || c = '!'

/-- Whether a string starts with an alphanumeric character. -/
def firstAlnum (s : String) : Bool :=
  match s.toList with
  | [] => false
  | c :: _ => c.isAlphanum

/-- A requirement value pip could really have produced: an editable one
is link-only; a regular one has a name starting alphanumeric with the
pip name character set, and versions over the version character set. -/
def WellFormed (h : HIR) : Prop :=
  if h.editable = true then
    h.name = "" ∧ h.specs = [] ∧ h.marker = none ∧ h.link.isSome = true
  else
    h.link = none ∧ firstAlnum h.name = true ∧
      (∀ c ∈ h.name.toList, goodNameChar c = true) ∧
      ∀ p ∈ h.specs, ∀ c ∈ (p.2 : String).toList, goodVersionChar c = true

instance (h : HIR) : Decidable (WellFormed h) := by
  unfold WellFormed; infer_instance

theorem goodNameChar_props {c : Char} (h : goodNameChar c = true) :
    ¬ c ∈ opChars ∧ c ≠ ';' ∧ c ≠ '#' := by
  rcases Bool.or_eq_true_iff.mp h with h' | h'
  · rcases Bool.or_eq_true_iff.mp h' with h'' | h''
    · rcases Bool.or_eq_true_iff.mp h'' with ha | he
      · refine ⟨fun hmem => ?_, fun he' => ?_, fun he' => ?_⟩
        · simp only [opChars, List.mem_cons, List.not_mem_nil, or_false] at hmem
          rcases hmem with rfl | rfl | rfl | rfl | rfl <;> exact absurd ha (by decide)
        · rw [he'] at ha; exact absurd ha (by decide)
        · rw [he'] at ha; exact absurd ha (by decide)
      · rw [decide_eq_true_iff] at he; subst he
        exact ⟨by decide, by decide, by decide⟩
    · rw [decide_eq_true_iff] at h''; subst h''
      exact ⟨by decide, by decide, by decide⟩
  · rw [decide_eq_true_iff] at h'; subst h'
    exact ⟨by decide, by decide, by decide⟩

theorem goodVersionChar_props {c : Char} (h : goodVersionChar c = true) :
    c ≠ ',' ∧ c ≠ ';' ∧ c ≠ '=' := by
  simp only [goodVersionChar, Bool.or_eq_true_iff, decide_eq_true_iff] at h
  rcases h with ⟨⟨⟨⟨⟨ha | rfl⟩ | rfl⟩ | rfl⟩ | rfl⟩ | rfl⟩ | rfl
  · refine ⟨fun he => ?_, fun he => ?_, fun he => ?_⟩ <;>
      (rw [he] at ha; exact absurd ha (by decide))
  all_goals exact ⟨by decide, by decide, by decide⟩

theorem vop_chars_props (o : VOp) :
    ∀ c ∈ o.chars, c ∈ opChars ∧ c ≠ ';' ∧ c ≠ ',' := by
  cases o <;> decide

theorem vop_chars_ne_nil (o : VOp) : o.chars ≠ [] := by
  cases o <;> decide

theorem splitSemi_append (body : List Char) (hns : ∀ c ∈ body, c ≠ ';')
    (m : Option String) :
    splitSemi (body ++ renderMarkerL m) = (body, m.map (fun s => s.toList)) := by
  induction body with
  | nil =>
      cases m with
      | none => rfl
      | some s => simp [renderMarkerL, splitSemi, dropOneSpace]
  | cons c rest ih =>
      have hc := hns c (List.mem_cons_self c rest)
      simp only [List.cons_append, splitSemi, if_neg hc, List.append_eq]
      rw [ih (fun c' hc' => hns c' (List.mem_cons_of_mem _ hc'))]

theorem takeWhile_append_all {p : Char → Bool} (a b : List Char)
    (ha : ∀ c ∈ a, p c = true) (hb : ∀ c cs, b = c :: cs → p c = false) :
    (a ++ b).takeWhile p = a ∧ (a ++ b).dropWhile p = b := by
  induction a with
  | nil =>
      cases b with
      | nil => simp
      | cons c cs =>
          have := hb c cs rfl
          simp [List.takeWhile_cons, List.dropWhile_cons, this]
  | cons x xs ih =>
      have hx := ha x (List.mem_cons_self x xs)
      obtain ⟨h1, h2⟩ := ih (fun c hc => ha c (List.mem_cons_of_mem _ hc))
      simp [List.takeWhile_cons, List.dropWhile_cons, hx, h1, h2]

theorem splitCsv_no_comma (l : List Char) (h : ¬ ',' ∈ l) : splitCsv l = [l] := by
  induction l with
  | nil => rfl
  | cons c rest ih =>
      have hc : ¬ c = ',' := fun he => h (by rw [he]; exact List.mem_cons_self _ _)
      simp only [splitCsv, if_neg hc]
      rw [ih (fun hm => h (List.mem_cons_of_mem _ hm))]

theorem splitCsv_comma_append (a b : List Char) (h : ¬ ',' ∈ a) :
    splitCsv (a ++ ',' :: b) = a :: splitCsv b := by
  induction a with
  | nil => simp [splitCsv]
  | cons c rest ih =>
      have hc : ¬ c = ',' := fun he => h (by rw [he]; exact List.mem_cons_self _ _)
      simp only [List.cons_append, splitCsv, if_neg hc, List.append_eq]
      rw [ih (fun hm => h (List.mem_cons_of_mem _ hm))]

theorem parseOp_render (o : VOp) (v : String)
    (hv : ∀ c ∈ v.toList, goodVersionChar c = true) :
    parseOp (o.chars ++ v.toList) = some (o, v.toList) := by
  cases hvl : v.toList with
  | nil => cases o <;> rfl
  | cons c cs =>
      have hc : c ≠ '=' :=
        (goodVersionChar_props (hv c (hvl ▸ List.mem_cons_self c cs))).2.2
      cases o <;> simp +decide [VOp.chars, parseOp, hc]

theorem parsePiece_render (o : VOp) (v : String)
    (hv : ∀ c ∈ v.toList, goodVersionChar c = true) :
    parsePiece (o.chars ++ v.toList) = some (o, v) := by
  unfold parsePiece
  rw [parseOp_render o v hv]
  rfl

theorem renderSpecsL_head (o : VOp) (v : String) (rest : List (VOp × String)) :
    ∃ c cs, renderSpecsL ((o, v) :: rest) = c :: cs ∧ c ∈ opChars := by
  cases o <;> exact ⟨_, _, rfl, by decide⟩

theorem mem_renderSpecsL {specs : List (VOp × String)} {c : Char}
    (hc : c ∈ renderSpecsL specs) :
    c = ',' ∨ ∃ p ∈ specs, c ∈ (p.1 : VOp).chars ∨ c ∈ (p.2 : String).toList := by
  induction specs with
  | nil => cases hc
  | cons p rest ih =>
      obtain ⟨o, v⟩ := p
      simp only [renderSpecsL, List.append_assoc, List.mem_append] at hc
      rcases hc with hc | hc | hc
      · exact Or.inr ⟨(o, v), List.mem_cons_self _ _, Or.inl hc⟩
      · exact Or.inr ⟨(o, v), List.mem_cons_self _ _, Or.inr hc⟩
      · rcases hc with hc | hc
        · split at hc
          · cases hc
          · rw [List.mem_singleton] at hc
            exact Or.inl hc
        · rcases ih hc with hc' | ⟨p', hp', hc'⟩
          · exact Or.inl hc'
          · exact Or.inr ⟨p', List.mem_cons_of_mem _ hp', hc'⟩

theorem renderSpecsL_no_semi {specs : List (VOp × String)}
    (hv : ∀ p ∈ specs, ∀ c ∈ (p.2 : String).toList, goodVersionChar c = true) :
    ∀ c ∈ renderSpecsL specs, c ≠ ';' := by
  intro c hc
  rcases mem_renderSpecsL hc with rfl | ⟨p, hp, hc'⟩
  · decide
  · rcases hc' with hc' | hc'
    · exact (vop_chars_props _ c hc').2.1
    · exact (goodVersionChar_props (hv p hp c hc')).2.1

theorem renderSpec_piece_no_comma (o : VOp) (v : String)
    (hv : ∀ c ∈ v.toList, goodVersionChar c = true) :
    ¬ ',' ∈ o.chars ++ v.toList := by
  intro hc
  rcases List.mem_append.mp hc with hc | hc
  · exact (vop_chars_props o ',' hc).2.2 rfl
  · exact (goodVersionChar_props (hv ',' hc)).1 rfl

theorem parseSpecs_render (specs : List (VOp × String))
    (hv : ∀ p ∈ specs, ∀ c ∈ (p.2 : String).toList, goodVersionChar c = true) :
    parseSpecs (renderSpecsL specs) = some specs := by
  induction specs with
  | nil => rfl
  | cons p rest ih =>
      obtain ⟨o, v⟩ := p
      have hvv : ∀ c ∈ v.toList, goodVersionChar c = true :=
        hv (o, v) (List.mem_cons_self _ _)
      have hvr : ∀ p ∈ rest, ∀ c ∈ (p.2 : String).toList, goodVersionChar c = true :=
        fun p hp => hv p (List.mem_cons_of_mem _ hp)
      obtain ⟨hne⟩ : ∃ _ : o.chars ≠ [], True := ⟨vop_chars_ne_nil o, trivial⟩
      cases rest with
      | nil =>
          have hrw : renderSpecsL [(o, v)] = o.chars ++ v.toList := by
            simp [renderSpecsL]
          rw [hrw]
          unfold parseSpecs
          rw [if_neg (by simp [hne]), splitCsv_no_comma _ (renderSpec_piece_no_comma o v hvv),
            List.mapM_cons, parsePiece_render o v hvv]
          rfl
      | cons p2 rest2 =>
          have hrw : renderSpecsL ((o, v) :: p2 :: rest2) =
              (o.chars ++ v.toList) ++ ',' :: renderSpecsL (p2 :: rest2) := by
            simp [renderSpecsL]
          rw [hrw]
          unfold parseSpecs
          rw [if_neg (by simp [hne]),
            splitCsv_comma_append _ _ (renderSpec_piece_no_comma o v hvv),
            List.mapM_cons, parsePiece_render o v hvv]
          unfold parseSpecs at ih
          obtain ⟨c, cs, hcs, _⟩ := renderSpecsL_head p2.1 p2.2 rest2
          rw [if_neg (by simp [hcs])] at ih
          · rw [ih hvr]
            rfl

theorem parseLine_eq_parseLineL (h : HIR) :
    parseLine (render h) = parseLineL (renderL h) := rfl

theorem isAlphanum_props {c : Char} (h : c.isAlphanum = true) :
    c ≠ '-' ∧ c ≠ '#' := by
  constructor <;> (intro he; rw [he] at h; exact absurd h (by decide))

theorem isEditableLine_ne (c : Char) (rest : List Char) (hc : c ≠ '-') :
    isEditableLine (c :: rest) = false := by
  cases rest with
  | nil => rfl
  | cons x rest2 =>
      cases rest2 with
      | nil => rfl
      | cons y rest3 => simp [isEditableLine, hc]

theorem renderL_false (name : String) (specs : List (VOp × String))
    (marker : Option String) (link : Option String) :
    renderL ⟨name, specs, marker, false, link⟩ =
      name.toList ++ renderSpecsL specs ++ renderMarkerL marker := rfl

/-- Parsing the canonical rendering of a well-formed requirement recovers
the requirement: the model of `from_line` inverts the model of `str`. -/
theorem parseLine_render (h : HIR) (hwf : WellFormed h) :
    parseLine (render h) = some h := by
  obtain ⟨name, specs, marker, editable, link⟩ := h
  unfold WellFormed at hwf
  cases editable with
  | true =>
      rw [if_pos rfl] at hwf
      obtain ⟨hn, hs, hm, hl⟩ := hwf
      simp only at hn hs hm hl
      obtain ⟨u, hu⟩ := Option.isSome_iff_exists.mp hl
      subst hn; subst hs; subst hm; subst hu
      rfl
  | false =>
      rw [if_neg (by simp)] at hwf
      obtain ⟨hl, hfa, hnc, hvc⟩ := hwf
      simp only at hl hfa hnc hvc
      subst hl
      cases hnl : name.toList with
      | nil => rw [firstAlnum, hnl] at hfa; cases hfa
      | cons c cs =>
          rw [firstAlnum, hnl] at hfa
          simp only at hfa
          rw [parseLine_eq_parseLineL, renderL_false]
          have hbody : ∀ x ∈ name.toList ++ renderSpecsL specs, x ≠ ';' := by
            intro x hx
            rcases List.mem_append.mp hx with hx | hx
            · exact (goodNameChar_props (hnc x hx)).2.1
            · exact renderSpecsL_no_semi hvc x hx
          have hedit : isEditableLine
              (name.toList ++ renderSpecsL specs ++ renderMarkerL marker) = false := by
            rw [hnl, List.cons_append, List.cons_append]
            exact isEditableLine_ne c _ (isAlphanum_props hfa).1
          rw [parseLineL, if_neg (by rw [hedit]; simp)]
          rw [splitSemi_append _ hbody marker]
          have htake := takeWhile_append_all (p := fun x => decide (¬ x ∈ opChars))
            name.toList (renderSpecsL specs)
            (fun x hx => decide_eq_true ((goodNameChar_props (hnc x hx)).1))
            (fun x xs hx => by
              cases hspecs : specs with
              | nil => rw [hspecs] at hx; cases hx
              | cons p rest =>
                  obtain ⟨c0, cs0, hc0, hmem0⟩ := renderSpecsL_head p.1 p.2 rest
                  rw [hspecs, hc0] at hx
                  obtain ⟨rfl, -⟩ := List.cons.inj hx
                  exact decide_eq_false (fun hn => hn hmem0))
          simp only [htake.1, htake.2]
          rw [parseSpecs_render specs hvc]
          cases marker with
          | none => rfl
          | some m => rfl

theorem classifyLine_of_head_alnum (l : String) (c : Char) (rest : List Char)
    (hl : l.toList = c :: rest) (hc : c.isAlphanum = true) :
    classifyLine l = .spec l := by
  have h1 : c ≠ '-' := (isAlphanum_props hc).1
  have h2 : c ≠ '#' := (isAlphanum_props hc).2
  have hne : l ≠ "" := fun he => by rw [he] at hl; cases hl
  unfold classifyLine strStarts
  rw [if_neg hne, hl]
  rw [(rfl : ("#" : String).toList = ['#']),
    (rfl : ("-r " : String).toList = ['-', 'r', ' ']),
    (rfl : ("-c " : String).toList = ['-', 'c', ' ']),
    (rfl : ("--index-url " : String).toList =
      ['-', '-', 'i', 'n', 'd', 'e', 'x', '-', 'u', 'r', 'l', ' ']),
    (rfl : ("--extra-index-url " : String).toList =
      ['-', '-', 'e', 'x', 't', 'r', 'a', '-', 'i', 'n', 'd', 'e', 'x',
       '-', 'u', 'r', 'l', ' ']),
    (rfl : ("-e " : String).toList = ['-', 'e', ' ']),
    (rfl : ("-" : String).toList = ['-'])]
  simp [List.isPrefixOf, Ne.symm h1, Ne.symm h2]

theorem render_toList (h : HIR) : (render h).toList = renderL h := rfl

theorem classifyLine_editable (u : String) :
    classifyLine (String.mk ('-' :: 'e' :: ' ' :: u.toList)) =
      .spec (String.mk ('-' :: 'e' :: ' ' :: u.toList)) := by
  have hne : String.mk ('-' :: 'e' :: ' ' :: u.toList) ≠ "" := by
    intro he
    have := congrArg String.toList he
    cases this
  unfold classifyLine strStarts
  rw [if_neg hne]
  rw [(rfl : ("#" : String).toList = ['#']),
    (rfl : ("-r " : String).toList = ['-', 'r', ' ']),
    (rfl : ("-c " : String).toList = ['-', 'c', ' ']),
    (rfl : ("--index-url " : String).toList =
      ['-', '-', 'i', 'n', 'd', 'e', 'x', '-', 'u', 'r', 'l', ' ']),
    (rfl : ("--extra-index-url " : String).toList =
      ['-', '-', 'e', 'x', 't', 'r', 'a', '-', 'i', 'n', 'd', 'e', 'x',
       '-', 'u', 'r', 'l', ' ']),
    (rfl : ("-e " : String).toList = ['-', 'e', ' ']),
    (rfl : (String.mk ('-' :: 'e' :: ' ' :: u.toList)).toList =
      '-' :: 'e' :: ' ' :: u.toList)]
  simp [List.isPrefixOf]

/-- A well-formed requirement's rendering is read back as a specifier
line by pip's line classification (never as a comment or an option). -/
theorem classifyLine_render_wf (h : HIR) (hwf : WellFormed h) :
    classifyLine (render h) = .spec (render h) := by
  obtain ⟨name, specs, marker, editable, link⟩ := h
  unfold WellFormed at hwf
  cases editable with
  | true =>
      rw [if_pos rfl] at hwf
      obtain ⟨hn, hs, hm, hl⟩ := hwf
      simp only at hn hs hm hl
      obtain ⟨u, hu⟩ := Option.isSome_iff_exists.mp hl
      subst hn; subst hs; subst hm; subst hu
      exact classifyLine_editable u
  | false =>
      rw [if_neg (by simp)] at hwf
      obtain ⟨hl, hfa, hnc, hvc⟩ := hwf
      simp only at hl hfa hnc hvc
      cases hnl : name.toList with
      | nil => rw [firstAlnum, hnl] at hfa; cases hfa
      | cons c cs =>
          rw [firstAlnum, hnl] at hfa
          simp only at hfa
          refine classifyLine_of_head_alnum _ c
            (cs ++ (renderSpecsL specs ++ renderMarkerL marker)) ?_ hfa
          rw [render_toList, renderL_false, hnl]
          simp [List.append_assoc]

theorem parseNestedPaths_specs (lines : List String)
    (h : ∀ l ∈ lines, classifyLine l = .spec l) :
    parseNestedPaths lines = ([], []) := by
  induction lines with
  | nil => rfl
  | cons l rest ih =>
      rw [parseNestedPaths, ih (fun l' hl' => h l' (List.mem_cons_of_mem _ hl')),
        h l (List.mem_cons_self _ _)]

theorem pipParseGo_specs (fs : FS) (dir : FsPath) (rs : List HIR)
    (hwf : ∀ r ∈ rs, WellFormed r) (acc : List HIR) (urls : List String) :
    pipParseGo fs (rs.length + 1) dir (rs.map render) acc urls =
      some (acc ++ rs, urls) := by
  induction rs generalizing acc with
  | nil => simp [pipParseGo]
  | cons r rest ih =>
      rw [List.map_cons, List.length_cons, pipParseGo]
      simp only [classifyLine_render_wf r (hwf r (List.mem_cons_self _ _)),
        parseLine_render r (hwf r (List.mem_cons_self _ _))]
      rw [ih (fun r' hr' => hwf r' (List.mem_cons_of_mem _ hr'))]
      simp

theorem mem_map_render_dedup_go (seen : List String) (l : List HIR) (s : String) :
    s ∈ (dedupByRender.go seen l).map render ↔
      s ∈ l.map render ∧ ¬ s ∈ seen := by
  induction l generalizing seen with
  | nil => simp [dedupByRender.go]
  | cons x xs ih =>
      by_cases hx : render x ∈ seen
      · rw [dedupByRender.go, if_pos hx, ih]
        simp only [List.map_cons, List.mem_cons]
        constructor
        · rintro ⟨hs, hns⟩
          exact ⟨Or.inr hs, hns⟩
        · rintro ⟨hs | hs, hns⟩
          · exact absurd (hs ▸ hx) hns
          · exact ⟨hs, hns⟩
      · rw [dedupByRender.go, if_neg hx]
        simp only [List.map_cons, List.mem_cons, ih]
        constructor
        · rintro (rfl | ⟨hs, hns⟩)
          · exact ⟨Or.inl rfl, hx⟩
          · exact ⟨Or.inr hs, fun hseen => hns (Or.inr hseen)⟩
        · rintro ⟨hor, hns⟩
          by_cases hsx : s = render x
          · exact Or.inl hsx
          · rcases hor with hor | hor
            · exact absurd hor hsx
            · exact Or.inr ⟨hor, fun hmem => hmem.elim hsx hns⟩

theorem mem_map_render_dedup (l : List HIR) (s : String) :
    s ∈ (dedupByRender l).map render ↔ s ∈ l.map render := by
  rw [dedupByRender, mem_map_render_dedup_go]
  simp

theorem mem_map_render_sort (l : List HIR) (s : String) :
    s ∈ (sortByRender l).map render ↔ s ∈ l.map render :=
  ((List.perm_insertionSort renderLe l).map render).mem_iff

/-- C4: writing a specifier set with `write_requirements` (no header) and
parsing the file back through `RequirementFile` reproduces a specifier
set with exactly the same rendered strings (set equality under the
rendering-based requirement equality). -/
theorem write_then_parse_roundtrip (S : List HIR) (path : FsPath)
    (hwf : ∀ r ∈ S, WellFormed r) :
    ∃ rf, parseFile
        (fun p => if p = path then some (writeRequirementsLines [] S) else none)
        (S.length + 1) path = some rf ∧
      ∀ s, s ∈ rf.requirements.map render ↔ s ∈ S.map render := by
  have hwf' : ∀ r ∈ sortByRender S, WellFormed r :=
    fun r hr => hwf r ((List.perm_insertionSort renderLe S).subset hr)
  have hcls : ∀ l ∈ (sortByRender S).map render, classifyLine l = .spec l := by
    intro l hl
    obtain ⟨r, hr, rfl⟩ := List.mem_map.mp hl
    exact classifyLine_render_wf r (hwf' r hr)
  have hlines : writeRequirementsLines [] S = (sortByRender S).map render := by
    simp [writeRequirementsLines]
  have hfs : (if path = path then some (writeRequirementsLines [] S)
      else none) = some ((sortByRender S).map render) := by
    simp [hlines]
  refine ⟨.mk path ((dedupByRender (sortByRender ([] ++ sortByRender S))).filter
      (fun r => ¬ render r ∈ (([] : List RFile).map
        (fun rf => rf.requirements.map render)).flatten)) [] [] [], ?_, ?_⟩
  · have hlen : S.length = (sortByRender S).length :=
      (List.perm_insertionSort renderLe S).length_eq.symm
    rw [parseFile, hfs]
    simp only [bind, Option.some_bind, parseNestedPaths_specs _ hcls]
    simp only [buildNested, Option.some_bind]
    rw [pipParse, hfs, hlen]
    simp only []
    rw [pipParseGo_specs _ _ _ hwf' [] []]
    simp only [Option.some_bind, Option.pure_def]
  · intro s
    simp only [RFile.requirements, List.nil_append]
    rw [List.filter_eq_self.mpr (fun r _ => by simp)]
    rw [mem_map_render_dedup, mem_map_render_sort, mem_map_render_sort]

/-- C4 witness: writing `[flask==1.0, mock]` and re-parsing the file
yields a requirement set with exactly the same rendered strings. -/
theorem write_then_parse_roundtrip_witness :
    ∃ rf, parseFile
        (fun p => if p = ["reqs.in"] then some (writeRequirementsLines []
          [⟨"flask", [(.veq, "1.0")], none, false, none⟩,
           ⟨"mock", [], none, false, none⟩]) else none)
        (([⟨"flask", [(.veq, "1.0")], none, false, none⟩,
           ⟨"mock", [], none, false, none⟩] : List HIR).length + 1) ["reqs.in"] = some rf ∧
      ∀ s, s ∈ rf.requirements.map render ↔
        s ∈ ([⟨"flask", [(.veq, "1.0")], none, false, none⟩,
              ⟨"mock", [], none, false, none⟩] : List HIR).map render :=
  write_then_parse_roundtrip
    [⟨"flask", [(.veq, "1.0")], none, false, none⟩,
     ⟨"mock", [], none, false, none⟩] ["reqs.in"] (by decide)

/-! ## The CLI layer: `main_add` (C6, C7)

`cli.main_add` collects the union of index URLs declared across all
requested tags' existing files before resolving anything, then runs
`reqwire.scaffold.extend_source_file` per tag inside one
`try/except piptools.exceptions.NoCandidateFound` block; on that error it
reports and aborts with a non-zero status.  `extend_source_file` is not
part of the sources and is modelled from the spec below.  The external
resolvers are parameters, so that resolution failures and the index URLs
each resolution call receives are observable: every run returns a log of
`(query, index URLs used)` pairs. -/

/-- A log of resolution calls: the queried specifier or package name,
and the index URLs the call was given. -/
abbrev ResLog := List (String × List String)

/-- The version resolver (`resolve_specifier` / `find_best_match`):
specifier, prerelease flag, index URLs; `Except.error` models
`piptools.exceptions.NoCandidateFound`. -/
abbrev ResolveVer := String → Bool → List String → Except Unit HIR

/-- The canonical-name resolver (`get_canonical_name`'s network side):
package name, index URLs; `Except.error` models `DistributionNotFound`. -/
abbrev ResolveName := String → List String → Except Unit String

/-- Non-strict string comparison as a decidable relation, for Python's
`sorted` on specifier strings. -/
def strLeR (a b : String) : Prop := strLe a b = true

instance : DecidableRel strLeR := fun a b => by
  unfold strLeR; infer_instance

/-- Python's `sorted` on strings. -/
def sortStrings (l : List String) : List String := l.insertionSort strLeR

/-- `OrderedSet.add`: appends unless an equal (by rendering) member is
already present. -/
def osAdd (acc : List HIR) (r : HIR) : List HIR :=
  if render r ∈ acc.map render then acc else acc ++ [r]

/-- `update_ireq_name`: rewrites the requirement's package name. -/
def updateIreqName (h : HIR) (n : String) : HIR := { h with name := n }

/-- One iteration of `build_ireq_set`'s loop: resolve the version (or
parse the raw line when `resolve_versions` is off), then resolve the
canonical name (when enabled) and rewrite the requirement's name.
`some (.error e)` is a `NoCandidateFound`; `none` models an uncaught
exception (malformed line, `DistributionNotFound`). -/
def resolveStep (rv : ResolveVer) (rn : ResolveName) (pre rcn rvs : Bool)
    (urls : List String) (s : String) : Option (Except Unit (HIR × ResLog)) :=
  match (match rvs with
         | true =>
             match rv s pre urls with
             | .error e => some (.error e)
             | .ok ireq => some (.ok (ireq, [(s, urls)]))
         | false =>
             match parseLine s with
             | none => none
             | some ireq => some (.ok (ireq, [])) :
         Option (Except Unit (HIR × ResLog))) with
  | none => none
  | some (.error e) => some (.error e)
  | some (.ok (ireq, lg)) =>
      match rcn with
      | true =>
          match rn ireq.name urls with
          | .error _ => none
          | .ok cname =>
              some (.ok (updateIreqName ireq cname, lg ++ [(ireq.name, urls)]))
      | false => some (.ok (ireq, lg))

/-- The loop of `build_ireq_set` over the (sorted) specifier strings. -/
def buildIreqSetGo (rv : ResolveVer) (rn : ResolveName) (pre rcn rvs : Bool)
    (urls : List String) : List String → List HIR → ResLog →
    Option (Except Unit (List HIR × ResLog))
  | [], acc, log => some (.ok (acc, log))
  | s :: rest, acc, log =>
      match resolveStep rv rn pre rcn rvs urls s with
      | none => none
      | some (.error e) => some (.error e)
      | some (.ok (ireq, lg)) =>
          buildIreqSetGo rv rn pre rcn rvs urls rest (osAdd acc ireq) (log ++ lg)

/-- `build_ireq_set`: sorts the specifiers, resolves each, and collects
the results into an ordered set. -/
def buildIreqSet (rv : ResolveVer) (rn : ResolveName) (pre rcn rvs : Bool)
    (specifiers : List String) (urls : List String) :
    Option (Except Unit (List HIR × ResLog)) :=
  buildIreqSetGo rv rn pre rcn rvs urls (sortStrings specifiers) [] []

/-- Modelled from the spec: `reqwire.scaffold.MODELINES_HEADER` (absent
from the sources) — "a fixed editor-modeline comment". -/
def modelinesLine : String := "# -*- coding: utf-8 -*-"

/-- Renders a path for a `-r`/`-c` header line (`str(RequirementFile)`
is `str(filename)`). -/
def pathStr : FsPath → String
  | [] => ""
  | [c] => c
  | c :: rest => c ++ "/" ++ pathStr rest

/-- Modelled from the spec: `reqwire.scaffold.build_source_header`
(absent from the sources) — the modeline comment, a
`# Generated by reqwire on <timestamp>` comment, nested `-c` and `-r`
includes, then `--index-url` (primary) and `--extra-index-url` lines,
in that fixed order. -/
def buildSourceHeader (timestamp : String) (indexUrls : List String)
    (cpaths rpaths : List String) : List String :=
  [modelinesLine, "# Generated by reqwire on " ++ timestamp]
    ++ cpaths.map (fun p => "-c " ++ p)
    ++ rpaths.map (fun p => "-r " ++ p)
    ++ (match indexUrls with
        | [] => []
        | u :: extras =>
            ("--index-url " ++ u) :: extras.map (fun e => "--extra-index-url " ++ e))

/-- Modelled from the spec: `reqwire.scaffold.build_filename` (absent
from the sources) — `<working_directory>/<source_dir>/<tag><extension>`,
as the CLI's `src_dir / ''.join((tag_name, extension))` also builds it. -/
def buildFilename (workDir : FsPath) (srcDir tag ext : String) : FsPath :=
  workDir ++ [srcDir, tag ++ ext]

/-- Modelled from the spec: `reqwire.scaffold.extend_source_file` (absent
from the sources), per spec §4.6 — load the tag's existing
`RequirementFile` (empty model if the file is absent), build the ireq set
for the raw specifiers with the *supplied* lookup index URLs, union it
into the existing set (set semantics, no duplicate renders), and rewrite
the tag's file with a header carrying the tag's own index URLs and nested
references.  `NoCandidateFound` from resolution propagates out. -/
def extendSourceFile (rv : ResolveVer) (rn : ResolveName) (pre rcn rvs : Bool)
    (fuel : Nat) (workDir : FsPath) (srcDir ext : String)
    (specifiers : List String) (lookupIndexUrls : List String)
    (timestamp : String) (tag : String) (fs : FS) :
    Option (Except Unit (FS × ResLog)) :=
  match constructRFile fs fuel (buildFilename workDir srcDir tag ext) with
  | none => none
  | some rf =>
      match buildIreqSet rv rn pre rcn rvs specifiers lookupIndexUrls with
      | none => none
      | some (.error e) => some (.error e)
      | some (.ok (newReqs, log)) =>
          let merged := rf.requirements ++
            newReqs.filter (fun r => ¬ render r ∈ rf.requirements.map render)
          let header := buildSourceHeader timestamp rf.indexUrls
            (rf.nestedCfiles.map fun nf => pathStr nf.filename)
            (rf.nestedRfiles.map fun nf => pathStr nf.filename)
          some (.ok
            (fun p => if p = buildFilename workDir srcDir tag ext then
              some (writeRequirementsLines header merged)
              else fs p, log))

/-- `main_add`'s pre-loop collection (cli.py): for every requested tag
whose source file exists, parse it and union the finder's index URLs into
one lookup set, before any specifier is resolved. -/
def collectLookupUrls (fs : FS) (fuel : Nat) (workDir : FsPath)
    (srcDir ext : String) : List String → List String → Option (List String)
  | [], acc => some acc
  | t :: rest, acc =>
      let path := buildFilename workDir srcDir t ext
      match fs path with
      | none => collectLookupUrls fs fuel workDir srcDir ext rest acc
      | some _ =>
          match pipParse fs fuel path with
          | none => none
          | some (_, urls) =>
              collectLookupUrls fs fuel workDir srcDir ext rest (listUnion acc urls)

/-- The per-tag step `main_add` runs inside its `try` block. -/
def addStep (rv : ResolveVer) (rn : ResolveName) (pre rcn rvs : Bool)
    (fuel : Nat) (workDir : FsPath) (srcDir ext : String)
    (specifiers : List String) (lookupIndexUrls : List String)
    (timestamp : String) (tag : String) (fs : FS) :
    Option (Except Unit (FS × ResLog)) :=
  extendSourceFile rv rn pre rcn rvs fuel workDir srcDir ext specifiers
    lookupIndexUrls timestamp tag fs

/-- `main_add`'s tag loop: tags strictly in order; a `NoCandidateFound`
aborts the whole loop (`ctx.abort()`, non-zero status), keeping the file
system exactly as the already-completed iterations left it. -/
def mainAddLoop (step : String → FS → Option (Except Unit (FS × ResLog))) :
    List String → FS → ResLog → Option (FS × Except Unit Unit × ResLog)
  | [], fs, log => some (fs, .ok (), log)
  | t :: rest, fs, log =>
      match step t fs with
      | none => none
      | some (.error _) => some (fs, .error (), log)
      | some (.ok (fs', lg)) => mainAddLoop step rest fs' (log ++ lg)

/-- `cli.main_add` (the core path: the `pip install` step and the
requirements-directory existence check are external to this model): an
empty tag list defaults to `main`; the cross-tag index-URL union is
collected before the loop; each tag is extended and rewritten in turn.
The result is the final file system, the exit disposition
(`.error` = aborted non-zero on `NoCandidateFound`), and the log of
resolution calls; `none` models an uncaught exception. -/
def mainAdd (rv : ResolveVer) (rn : ResolveName) (pre rcn rvs : Bool)
    (fuel : Nat) (workDir : FsPath) (srcDir ext : String)
    (tags0 : List String) (specifiers : List String) (timestamp : String)
    (fs : FS) : Option (FS × Except Unit Unit × ResLog) :=
  match collectLookupUrls fs fuel workDir srcDir ext
      (if tags0 = [] then ["main"] else tags0) [] with
  | none => none
  | some lookupUrls =>
      mainAddLoop (addStep rv rn pre rcn rvs fuel workDir srcDir ext
        specifiers lookupUrls timestamp)
        (if tags0 = [] then ["main"] else tags0) fs []

/-- The file system produced by the successfully completed prefix of the
add loop. -/
def runAddPrefix (step : String → FS → Option (Except Unit (FS × ResLog))) :
    List String → FS → Option FS
  | [], fs => some fs
  | t :: rest, fs =>
      match step t fs with
      | some (.ok (fs', _)) => runAddPrefix step rest fs'
      | _ => none

theorem buildFilename_inj (workDir : FsPath) (srcDir ext : String)
    {t u : String}
    (h : buildFilename workDir srcDir t ext = buildFilename workDir srcDir u ext) :
    t = u := by
  unfold buildFilename at h
  have h2 := List.append_cancel_left h
  have h3 : t ++ ext = u ++ ext := by
    injection h2 with _ h4
    injection h4
  exact String.ext (List.append_cancel_right
    (by rw [← String.data_append, ← String.data_append, h3]))

theorem addStep_frame (rv : ResolveVer) (rn : ResolveName) (pre rcn rvs : Bool)
    (fuel : Nat) (workDir : FsPath) (srcDir ext : String)
    (specifiers urls : List String) (ts tag : String) (fs fs2 : FS) (lg : ResLog)
    (h : addStep rv rn pre rcn rvs fuel workDir srcDir ext specifiers urls ts
      tag fs = some (.ok (fs2, lg)))
    (p : FsPath) (hp : p ≠ buildFilename workDir srcDir tag ext) :
    fs2 p = fs p := by
  unfold addStep extendSourceFile at h
  cases hc : constructRFile fs fuel (buildFilename workDir srcDir tag ext) with
  | none => rw [hc] at h; cases h
  | some rf =>
      rw [hc] at h
      cases hb : buildIreqSet rv rn pre rcn rvs specifiers urls with
      | none => rw [hb] at h; cases h
      | some exr =>
          rw [hb] at h
          cases exr with
          | error e => simp at h
          | ok pr =>
              simp only [Option.some.injEq, Except.ok.injEq, Prod.mk.injEq] at h
              obtain ⟨hfs2, -⟩ := h
              rw [← hfs2]
              simp [hp]

theorem runAddPrefix_unchanged (rv : ResolveVer) (rn : ResolveName)
    (pre rcn rvs : Bool) (fuel : Nat) (workDir : FsPath) (srcDir ext : String)
    (specifiers urls : List String) (ts : String) (done : List String)
    (fs fsMid : FS)
    (h : runAddPrefix (addStep rv rn pre rcn rvs fuel workDir srcDir ext
      specifiers urls ts) done fs = some fsMid)
    (p : FsPath) (hp : ∀ t ∈ done, p ≠ buildFilename workDir srcDir t ext) :
    fsMid p = fs p := by
  induction done generalizing fs with
  | nil =>
      rw [runAddPrefix] at h
      rw [← Option.some.inj h]
  | cons t rest ih =>
      rw [runAddPrefix] at h
      cases hs : addStep rv rn pre rcn rvs fuel workDir srcDir ext specifiers
          urls ts t fs with
      | none => rw [hs] at h; cases h
      | some exr =>
          rw [hs] at h
          cases exr with
          | error e => cases h
          | ok pr =>
              obtain ⟨fs1, lg⟩ := pr
              simp only [] at h
              rw [ih fs1 h (fun u hu => hp u (List.mem_cons_of_mem _ hu))]
              exact addStep_frame rv rn pre rcn rvs fuel workDir srcDir ext
                specifiers urls ts t fs fs1 lg hs p (hp t (List.mem_cons_self _ _))

theorem mainAddLoop_error
    (step : String → FS → Option (Except Unit (FS × ResLog)))
    (tags : List String) (fs : FS) (log : ResLog) (fs' : FS) (log' : ResLog)
    (h : mainAddLoop step tags fs log = some (fs', .error (), log')) :
    ∃ done t rest fsMid, tags = done ++ t :: rest ∧
      runAddPrefix step done fs = some fsMid ∧
      (∃ e, step t fsMid = some (.error e)) ∧ fs' = fsMid := by
  induction tags generalizing fs log with
  | nil => rw [mainAddLoop] at h; simp at h
  | cons t rest ih =>
      rw [mainAddLoop] at h
      cases hs : step t fs with
      | none => rw [hs] at h; cases h
      | some exr =>
          rw [hs] at h
          cases exr with
          | error e =>
              refine ⟨[], t, rest, fs, rfl, rfl, ⟨e, hs⟩, ?_⟩
              simp only [Option.some.injEq, Prod.mk.injEq] at h
              exact h.1.symm
          | ok pr =>
              obtain ⟨fs1, lg⟩ := pr
              simp only [] at h
              obtain ⟨done, t', rest', fsMid, htags, hrun, hfail, hfs'⟩ :=
                ih fs1 (log ++ lg) h
              refine ⟨t :: done, t', rest', fsMid,
                by rw [htags, List.cons_append], ?_, hfail, hfs'⟩
              rw [runAddPrefix, hs]
              simp only []
              exact hrun

/-- C6: when any specifier's version resolution fails with
`NoCandidateFound` during a multi-tag add, the whole operation aborts with
a non-zero status; the final file system is exactly the one left by the
tags completed in earlier iterations (their writes stay on disk), and the
file of the failing tag and the files of all not-yet-processed tags are
unchanged from before the loop — a partial-failure policy, not a
cross-tag transaction. -/
theorem main_add_partial_failure (rv : ResolveVer) (rn : ResolveName)
    (pre rcn rvs : Bool) (fuel : Nat) (workDir : FsPath) (srcDir ext : String)
    (tags specifiers : List String) (ts : String) (fs fs' : FS) (log : ResLog)
    (hnodup : tags.Nodup) (hne : tags ≠ [])
    (h : mainAdd rv rn pre rcn rvs fuel workDir srcDir ext tags specifiers ts
      fs = some (fs', .error (), log)) :
    ∃ urls done t rest fsMid,
      collectLookupUrls fs fuel workDir srcDir ext tags [] = some urls ∧
      tags = done ++ t :: rest ∧
      runAddPrefix (addStep rv rn pre rcn rvs fuel workDir srcDir ext
        specifiers urls ts) done fs = some fsMid ∧
      (∃ e, addStep rv rn pre rcn rvs fuel workDir srcDir ext specifiers urls
        ts t fsMid = some (.error e)) ∧
      fs' = fsMid ∧
      ∀ u ∈ t :: rest, fs' (buildFilename workDir srcDir u ext) =
        fs (buildFilename workDir srcDir u ext) := by
  unfold mainAdd at h
  rw [if_neg hne] at h
  cases hcol : collectLookupUrls fs fuel workDir srcDir ext tags [] with
  | none => rw [hcol] at h; cases h
  | some urls =>
      rw [hcol] at h
      obtain ⟨done, t, rest, fsMid, htags, hrun, hfail, hfs'⟩ :=
        mainAddLoop_error _ tags fs [] fs' log h
      refine ⟨urls, done, t, rest, fsMid, rfl, htags, hrun, hfail, hfs', ?_⟩
      intro u hu
      rw [hfs']
      apply runAddPrefix_unchanged rv rn pre rcn rvs fuel workDir srcDir ext
        specifiers urls ts done fs fsMid hrun
      intro d hd heq
      have hud : u = d := buildFilename_inj _ _ _ heq
      subst hud
      rw [htags] at hnodup
      exact (List.nodup_append.mp hnodup).2.2 hd hu

/-- File system for the C6 witness: only tag `a`'s source file exists. -/
def fsC6 : FS := fun p =>
  if p = ["requirements", "src", "a.in"] then some ["x"] else none

/-- Version resolver for the C6 witness: always `NoCandidateFound`. -/
def rvFail : ResolveVer := fun _ _ _ => .error ()

/-- Canonical-name resolver for the witnesses: identity, never failing. -/
def rnId : ResolveName := fun n _ => .ok n

/-- C6 witness: adding `boom` to tags `a, b` fails at tag `a` (the first
iteration), the run aborts, and both tag files are untouched. -/
theorem main_add_partial_failure_witness :
    ∃ urls done t rest fsMid,
      collectLookupUrls fsC6 3 ["requirements"] "src" ".in" ["a", "b"] [] =
        some urls ∧
      (["a", "b"] : List String) = done ++ t :: rest ∧
      runAddPrefix (addStep rvFail rnId false false true 3 ["requirements"]
        "src" ".in" ["boom"] urls "T") done fsC6 = some fsMid ∧
      (∃ e, addStep rvFail rnId false false true 3 ["requirements"] "src"
        ".in" ["boom"] urls "T" t fsMid = some (.error e)) ∧
      fsC6 = fsMid ∧
      ∀ u ∈ t :: rest, fsC6 (buildFilename ["requirements"] "src" u ".in") =
        fsC6 (buildFilename ["requirements"] "src" u ".in") :=
  main_add_partial_failure rvFail rnId false false true 3 ["requirements"]
    "src" ".in" ["a", "b"] ["boom"] "T" fsC6 fsC6 [] (by decide) (by decide) rfl

theorem resolveStep_log (rv : ResolveVer) (rn : ResolveName)
    (pre rcn rvs : Bool) (urls : List String) (s : String) (ireq : HIR)
    (lg : ResLog) (h : resolveStep rv rn pre rcn rvs urls s = some (.ok (ireq, lg))) :
    ∀ e ∈ lg, e.2 = urls := by
  unfold resolveStep at h
  cases rvs with
  | true =>
      cases hres : rv s pre urls with
      | error e => rw [hres] at h; simp at h
      | ok ireq0 =>
          rw [hres] at h
          simp only [] at h
          cases rcn with
          | true =>
              simp only [] at h
              cases hname : rn ireq0.name urls with
              | error e => rw [hname] at h; cases h
              | ok cname =>
                  rw [hname] at h
                  simp only [Option.some.injEq, Except.ok.injEq,
                    Prod.mk.injEq] at h
                  rw [← h.2]
                  intro e he
                  rcases List.mem_append.mp he with he | he
                  · rw [List.mem_singleton.mp he]
                  · rw [List.mem_singleton.mp he]
          | false =>
              simp only [Option.some.injEq, Except.ok.injEq, Prod.mk.injEq] at h
              rw [← h.2]
              intro e he
              rw [List.mem_singleton.mp he]
  | false =>
      cases hpl : parseLine s with
      | none => rw [hpl] at h; cases h
      | some ireq0 =>
          rw [hpl] at h
          simp only [] at h
          cases rcn with
          | true =>
              simp only [] at h
              cases hname : rn ireq0.name urls with
              | error e => rw [hname] at h; cases h
              | ok cname =>
                  rw [hname] at h
                  simp only [Option.some.injEq, Except.ok.injEq,
                    Prod.mk.injEq] at h
                  rw [← h.2]
                  intro e he
                  simp only [List.nil_append, List.mem_singleton] at he
                  rw [he]
          | false =>
              simp only [Option.some.injEq, Except.ok.injEq, Prod.mk.injEq] at h
              rw [← h.2]
              intro e he
              cases he

theorem buildIreqSetGo_log (rv : ResolveVer) (rn : ResolveName)
    (pre rcn rvs : Bool) (urls : List String) (specs : List String)
    (acc : List HIR) (log : ResLog) (hlog : ∀ e ∈ log, e.2 = urls)
    (res : List HIR) (lg' : ResLog)
    (h : buildIreqSetGo rv rn pre rcn rvs urls specs acc log =
      some (.ok (res, lg'))) :
    ∀ e ∈ lg', e.2 = urls := by
  induction specs generalizing acc log with
  | nil =>
      rw [buildIreqSetGo] at h
      simp only [Option.some.injEq, Except.ok.injEq, Prod.mk.injEq] at h
      rw [← h.2]
      exact hlog
  | cons s rest ih =>
      rw [buildIreqSetGo] at h
      cases hstep : resolveStep rv rn pre rcn rvs urls s with
      | none => rw [hstep] at h; cases h
      | some exr =>
          rw [hstep] at h
          cases exr with
          | error e => simp at h
          | ok pr =>
              obtain ⟨ireq, lg⟩ := pr
              simp only [] at h
              refine ih (osAdd acc ireq) (log ++ lg) ?_ h
              intro e he
              rcases List.mem_append.mp he with he | he
              · exact hlog e he
              · exact resolveStep_log rv rn pre rcn rvs urls s ireq lg hstep e he

theorem mainAddLoop_log (step : String → FS → Option (Except Unit (FS × ResLog)))
    (P : String × List String → Prop)
    (hstep : ∀ t fsB fs2 lg, step t fsB = some (.ok (fs2, lg)) → ∀ e ∈ lg, P e)
    (tags : List String) (fs : FS) (log : ResLog) (fs' : FS)
    (st : Except Unit Unit) (log' : ResLog) (hlog : ∀ e ∈ log, P e)
    (h : mainAddLoop step tags fs log = some (fs', st, log')) :
    ∀ e ∈ log', P e := by
  induction tags generalizing fs log with
  | nil =>
      rw [mainAddLoop] at h
      simp only [Option.some.injEq, Prod.mk.injEq] at h
      rw [← h.2.2]
      exact hlog
  | cons t rest ih =>
      rw [mainAddLoop] at h
      cases hs : step t fs with
      | none => rw [hs] at h; cases h
      | some exr =>
          rw [hs] at h
          cases exr with
          | error e =>
              simp only [Option.some.injEq, Prod.mk.injEq] at h
              rw [← h.2.2]
              exact hlog
          | ok pr =>
              obtain ⟨fs1, lg⟩ := pr
              simp only [] at h
              refine ih fs1 (log ++ lg) ?_ h
              intro e he
              rcases List.mem_append.mp he with he | he
              · exact hlog e he
              · exact hstep t fs fs1 lg hs e he

theorem addStep_ok (rv : ResolveVer) (rn : ResolveName) (pre rcn rvs : Bool)
    (fuel : Nat) (workDir : FsPath) (srcDir ext : String)
    (specifiers urls : List String) (ts t : String) (fsB fs2 : FS) (lg : ResLog)
    (h : addStep rv rn pre rcn rvs fuel workDir srcDir ext specifiers urls ts
      t fsB = some (.ok (fs2, lg))) :
    ∃ rf newReqs,
      constructRFile fsB fuel (buildFilename workDir srcDir t ext) = some rf ∧
      buildIreqSet rv rn pre rcn rvs specifiers urls = some (.ok (newReqs, lg)) ∧
      fs2 = fun p => if p = buildFilename workDir srcDir t ext then
          some (writeRequirementsLines (buildSourceHeader ts rf.indexUrls
            (rf.nestedCfiles.map fun nf => pathStr nf.filename)
            (rf.nestedRfiles.map fun nf => pathStr nf.filename))
            (rf.requirements ++ newReqs.filter
              (fun r => ¬ render r ∈ rf.requirements.map render)))
        else fsB p := by
  unfold addStep extendSourceFile at h
  cases hc : constructRFile fsB fuel (buildFilename workDir srcDir t ext) with
  | none => rw [hc] at h; cases h
  | some rf =>
      rw [hc] at h
      cases hb : buildIreqSet rv rn pre rcn rvs specifiers urls with
      | none => rw [hb] at h; cases h
      | some exr =>
          rw [hb] at h
          cases exr with
          | error e => simp at h
          | ok pr =>
              obtain ⟨newReqs, lg0⟩ := pr
              simp only [Option.some.injEq, Except.ok.injEq, Prod.mk.injEq] at h
              exact ⟨rf, newReqs, rfl, by rw [← h.2], h.1.symm⟩

/-- C7: in a multi-tag add, name/version resolution of every specifier in
every tag uses the union of the index URLs declared across all requested
tags' existing files, collected before any resolution happens — while a
tag's written file still carries a header built only from that tag's own
parsed index URLs. -/
theorem main_add_cross_tag_union (rv : ResolveVer) (rn : ResolveName)
    (pre rcn rvs : Bool) (fuel : Nat) (workDir : FsPath) (srcDir ext : String)
    (tags specifiers : List String) (ts : String) (fs fs' : FS)
    (st : Except Unit Unit) (log : ResLog) (hne : tags ≠ [])
    (h : mainAdd rv rn pre rcn rvs fuel workDir srcDir ext tags specifiers ts
      fs = some (fs', st, log)) :
    ∃ urls, collectLookupUrls fs fuel workDir srcDir ext tags [] = some urls ∧
      (∀ e ∈ log, e.2 = urls) ∧
      ∀ t fsB fs2 lg, addStep rv rn pre rcn rvs fuel workDir srcDir ext
          specifiers urls ts t fsB = some (.ok (fs2, lg)) →
        ∃ rf merged,
          constructRFile fsB fuel (buildFilename workDir srcDir t ext) =
            some rf ∧
          fs2 (buildFilename workDir srcDir t ext) =
            some (buildSourceHeader ts rf.indexUrls
              (rf.nestedCfiles.map fun nf => pathStr nf.filename)
              (rf.nestedRfiles.map fun nf => pathStr nf.filename) ++
              (sortByRender merged).map render) := by
  unfold mainAdd at h
  rw [if_neg hne] at h
  cases hcol : collectLookupUrls fs fuel workDir srcDir ext tags [] with
  | none => rw [hcol] at h; cases h
  | some urls =>
      rw [hcol] at h
      refine ⟨urls, rfl, ?_, ?_⟩
      · refine mainAddLoop_log _ _ ?_ tags fs [] fs' st log
          (fun e he => by cases he) h
        intro t fsB fs2 lg hs
        obtain ⟨rf, newReqs, -, hb, -⟩ := addStep_ok rv rn pre rcn rvs fuel
          workDir srcDir ext specifiers urls ts t fsB fs2 lg hs
        exact buildIreqSetGo_log rv rn pre rcn rvs urls
          (sortStrings specifiers) [] [] (fun e he => by cases he) newReqs lg hb
      · intro t fsB fs2 lg hs
        obtain ⟨rf, newReqs, hc, -, hfs2⟩ := addStep_ok rv rn pre rcn rvs fuel
          workDir srcDir ext specifiers urls ts t fsB fs2 lg hs
        refine ⟨rf, rf.requirements ++ newReqs.filter
          (fun r => ¬ render r ∈ rf.requirements.map render), hc, ?_⟩
        rw [hfs2]
        simp [writeRequirementsLines]

/-- File system for the C7 witness: tags `a` and `b` each declare their
own extra index URL. -/
def fsC7 : FS := fun p =>
  if p = ["requirements", "src", "a.in"] then
    some ["--extra-index-url http://a.example/simple", "flask"]
  else if p = ["requirements", "src", "b.in"] then
    some ["--extra-index-url http://b.example/simple"]
  else none

/-- Version resolver for the C7 witness: parses the line, never pinning. -/
def rvParse : ResolveVer := fun s _ _ =>
  match parseLine s with
  | some h => .ok h
  | none => .error ()

/-- C7 witness: adding `flask` to tags `a, b` resolves every call — for
both tags — against the union of both tags' declared URLs, collected up
front. -/
theorem main_add_cross_tag_union_witness :
    ∃ urls, collectLookupUrls fsC7 3 ["requirements"] "src" ".in"
        ["a", "b"] [] = some urls ∧
      (∀ e ∈ ([("flask", ["http://a.example/simple", "http://b.example/simple"]),
               ("flask", ["http://a.example/simple", "http://b.example/simple"]),
               ("flask", ["http://a.example/simple", "http://b.example/simple"]),
               ("flask", ["http://a.example/simple", "http://b.example/simple"])] :
          ResLog), e.2 = urls) ∧
      ∀ t fsB fs2 lg, addStep rvParse rnId false true true 3 ["requirements"]
          "src" ".in" ["flask"] urls "T" t fsB = some (.ok (fs2, lg)) →
        ∃ rf merged,
          constructRFile fsB 3 (buildFilename ["requirements"] "src" t ".in") =
            some rf ∧
          fs2 (buildFilename ["requirements"] "src" t ".in") =
            some (buildSourceHeader "T" rf.indexUrls
              (rf.nestedCfiles.map fun nf => pathStr nf.filename)
              (rf.nestedRfiles.map fun nf => pathStr nf.filename) ++
              (sortByRender merged).map render) :=
  main_add_cross_tag_union rvParse rnId false true true 3 ["requirements"]
    "src" ".in" ["a", "b"] ["flask"] "T" fsC7 _ _ _ (by decide) rfl

/-! ## The CLI layer: `main_remove` (C8, C9)

`cli.main_remove` loads each tag's file, builds a requirement from each
requested specifier, and iterates over `req_file.requirements`
(an ordered set backed by a list) calling `.remove(...)` on name matches
*while iterating*; removing the element at the iterator's position shifts
the list, so the element immediately after a removed one is skipped.
Afterwards it unconditionally rewrites the file with a freshly generated
header.  `pyRemovePass` models one such remove-while-iterating sweep. -/

/-- Python's `for requirement in requirements: if name matches:
requirements.remove(requirement)` over a list-backed ordered set:
removing the current element shifts the list, so the following element is
never visited. -/
def pyRemovePass (target : String) : List HIR → List HIR
  | [] => []
  | [x] => if x.name = target then [] else [x]
  | x :: y :: rest =>
      if x.name = target then y :: pyRemovePass target rest
      else x :: pyRemovePass target (y :: rest)

/-- `main_remove` for one tag: a missing file is only warned about; an
existing one is parsed, each requested specifier's extracted package name
is removed by the iterating sweep, and the file is rewritten with a
regenerated header (modelled from the spec, as `build_source_header` is
not in the sources).  `none` models an uncaught exception (unparseable
specifier or file). -/
def mainRemoveTag (fuel : Nat) (workDir : FsPath) (srcDir ext ts : String)
    (specifiers : List String) (fs : FS) (tag : String) : Option FS :=
  match fs (buildFilename workDir srcDir tag ext) with
  | none => some fs
  | some _ =>
      match parseFile fs fuel (buildFilename workDir srcDir tag ext) with
      | none => none
      | some rf =>
          match specifiers.mapM parseLine with
          | none => none
          | some hireqs =>
              let remaining := hireqs.foldl
                (fun acc hq => pyRemovePass hq.name acc) rf.requirements
              let header := buildSourceHeader ts rf.indexUrls
                (rf.nestedCfiles.map fun nf => pathStr nf.filename)
                (rf.nestedRfiles.map fun nf => pathStr nf.filename)
              some (fun p => if p = buildFilename workDir srcDir tag ext then
                some (writeRequirementsLines header remaining) else fs p)

/-- `cli.main_remove` over its tags (empty tag list defaults to `main`). -/
def mainRemove (fuel : Nat) (workDir : FsPath) (srcDir ext ts : String)
    (specifiers : List String) (tags0 : List String) (fs : FS) : Option FS :=
  go (if tags0 = [] then ["main"] else tags0) fs
where
  /-- Sequential per-tag processing. -/
  go : List String → FS → Option FS
    | [], fs => some fs
    | t :: rest, fs =>
        match mainRemoveTag fuel workDir srcDir ext ts specifiers fs t with
        | none => none
        | some fs' => go rest fs'

theorem pyRemovePass_no_match (target : String) (l : List HIR)
    (h : ∀ r ∈ l, r.name ≠ target) : pyRemovePass target l = l := by
  induction l with
  | nil => rfl
  | cons x xs ih =>
      cases xs with
      | nil => simp [pyRemovePass, h x (List.mem_cons_self _ _)]
      | cons y rest =>
          have hx := h x (List.mem_cons_self _ _)
          simp only [pyRemovePass, if_neg hx]
          exact congrArg (x :: ·)
            (ih (fun r hr => h r (List.mem_cons_of_mem _ hr)))

/-- File system for the C8 counterexample: `main.in` holds the bare line
`flask` (no header). -/
def fsC8 : FS := fun p =>
  if p = ["requirements", "src", "main.in"] then some ["flask"] else none

/-- C8 counterexample: removing `mock`, a name not present in `main.in`,
does not raise, but the file is rewritten in canonical form with a
regenerated header — the resulting content is not byte-for-byte equal to
the original. -/
theorem main_remove_absent_counterexample :
    ∃ fs', mainRemove 3 ["requirements"] "src" ".in" "T" ["mock"] ["main"]
        fsC8 = some fs' ∧
      fs' ["requirements", "src", "main.in"] ≠
        fsC8 ["requirements", "src", "main.in"] := by
  refine ⟨_, rfl, ?_⟩
  decide

/-- C8 amended: removing a package name absent from the tag's file does
not raise, and the specifier set written back is exactly the parsed set,
unchanged; but the file is unconditionally rewritten in canonical sorted
form under a regenerated (timestamped) header, so its bytes generally
differ from the original. -/
theorem main_remove_absent_amended (fuel : Nat) (workDir : FsPath)
    (srcDir ext ts tag s : String) (fs : FS) (rf : RFile) (hq : HIR)
    (hparse : parseFile fs fuel (buildFilename workDir srcDir tag ext) = some rf)
    (hs : parseLine s = some hq)
    (habsent : ∀ r ∈ rf.requirements, r.name ≠ hq.name) :
    mainRemoveTag fuel workDir srcDir ext ts [s] fs tag =
      some (fun p => if p = buildFilename workDir srcDir tag ext then
          some (writeRequirementsLines (buildSourceHeader ts rf.indexUrls
            (rf.nestedCfiles.map fun nf => pathStr nf.filename)
            (rf.nestedRfiles.map fun nf => pathStr nf.filename))
            rf.requirements)
        else fs p) := by
  unfold mainRemoveTag
  cases hfs : fs (buildFilename workDir srcDir tag ext) with
  | none =>
      cases fuel with
      | zero => cases hparse
      | succ fuel =>
          rw [parseFile] at hparse
          simp only [bind, hfs, Option.none_bind] at hparse
          cases hparse
  | some lines =>
      rw [hparse]
      simp only [List.mapM_cons, List.mapM_nil, hs, Option.bind_eq_bind,
        Option.some_bind, Option.pure_def, List.foldl_cons, List.foldl_nil]
      rw [pyRemovePass_no_match hq.name rf.requirements habsent]

/-- C8 amended witness: removing absent `mock` from `main.in` containing
`flask` succeeds, writing the unchanged set `[flask]` under the
regenerated header. -/
theorem main_remove_absent_amended_witness :
    mainRemoveTag 3 ["requirements"] "src" ".in" "T" ["mock"] fsC8 "main" =
      some (fun p => if p = buildFilename ["requirements"] "src" "main" ".in"
          then some (writeRequirementsLines (buildSourceHeader "T"
            (RFile.mk ["requirements", "src", "main.in"]
              [⟨"flask", [], none, false, none⟩] [] [] []).indexUrls
            ((RFile.mk ["requirements", "src", "main.in"]
              [⟨"flask", [], none, false, none⟩] [] [] []).nestedCfiles.map
                fun nf => pathStr nf.filename)
            ((RFile.mk ["requirements", "src", "main.in"]
              [⟨"flask", [], none, false, none⟩] [] [] []).nestedRfiles.map
                fun nf => pathStr nf.filename))
            (RFile.mk ["requirements", "src", "main.in"]
              [⟨"flask", [], none, false, none⟩] [] [] []).requirements)
        else fsC8 p) :=
  main_remove_absent_amended 3 ["requirements"] "src" ".in" "T" "main" "mock"
    fsC8 _ _ rfl rfl (by decide)

/-- File system for the C9 failing input: `main.in` holds two specifiers
with the extracted name `flask` that are adjacent in the parsed
(sorted-by-render) order, plus `mock`. -/
def fsC9 : FS := fun p =>
  if p = ["requirements", "src", "main.in"] then
    some ["flask==1.0", "flask==2.0", "mock"] else none

/-- C9: evaluation at the failing input.  The remove sweep mutates the
ordered set while iterating it, so removing `flask==1.0` shifts the list
and skips `flask==2.0`: after `remove flask`, the rewritten `main.in`
still contains a specifier whose extracted package name is `flask`,
contradicting the claim (and the spec's "remove all matches"). -/
theorem main_remove_skips_adjacent_match :
    pyRemovePass "flask"
        [⟨"flask", [(.veq, "1.0")], none, false, none⟩,
         ⟨"flask", [(.veq, "2.0")], none, false, none⟩,
         ⟨"mock", [], none, false, none⟩] =
      [⟨"flask", [(.veq, "2.0")], none, false, none⟩,
       ⟨"mock", [], none, false, none⟩] ∧
    (mainRemove 5 ["requirements"] "src" ".in" "T" ["flask"] ["main"]
        fsC9).map (fun f => f ["requirements", "src", "main.in"]) =
      some (some [modelinesLine, "# Generated by reqwire on T",
        "flask==2.0", "mock"]) := by
  exact ⟨by decide, by decide⟩
